import Mathlib

/-!
Verification of the two-layer perceptron notebook
(`src/CodingSession2/TwoLayerPerceptron.ipynb`).

Numeric arrays are embedded as Mathlib matrices over `ℚ` (exact rational
arithmetic standing for the float computations), label vectors as
`List Int`, and numpy's fallible indexing as `Option`.  The notebook is a
fill-in-the-blank exercise: several function bodies are elided between
`START OF YOUR CODE` markers, with only the docstring contract, the
surrounding composition code and numerical test cells present.  Those
bodies are modelled from the spec and marked as such in their doc
comments; everything else is translated directly from the source.
-/

namespace TwoLayerPerceptron

open Matrix

/-- numpy index resolution for `ary[i, val]` on an array with `C` columns:
a value in `[0, C)` addresses that column, a value in `[-C, 0)` wraps to
column `C + val`, anything else raises `IndexError` (modelled as `none`). -/
def npIndex (C : Nat) (v : Int) : Option (Fin C) :=
  if h : 0 ≤ v ∧ v < (C : Int) then
    some ⟨v.toNat, by omega⟩
  else if h2 : -(C : Int) ≤ v ∧ v < 0 then
    some ⟨(v + (C : Int)).toNat, by omega⟩
  else
    none

/-- `int_to_onehot(y, num_labels)` from the source: starts from an all-zero
`N × num_labels` array and sets `ary[i, val] = 1` for each label `val`.
numpy's indexing (including negative-index wraparound and `IndexError`)
is modelled by `npIndex`; a raised `IndexError` is `none`. -/
def int_to_onehot : List Int → (C : Nat) → Option (List (Fin C → ℚ))
  | [], _ => some []
  | v :: rest, C =>
    match npIndex C v, int_to_onehot rest C with
    | some jv, some rows => some ((fun j => if j = jv then (1 : ℚ) else 0) :: rows)
    | _, _ => none

/-- Squared Frobenius norm of a matrix given as a list of rows:
`np.linalg.norm(m)**2`. -/
def frobSq {C : Nat} (rows : List (Fin C → ℚ)) : ℚ :=
  (rows.map fun r => ∑ j, (r j) ^ 2).sum

/-- `mse_loss(targets, probas, num_labels)` from the source:
`(0.5 / N) * np.linalg.norm(int_to_onehot(targets) - probas)**2`,
propagating a label-encoding `IndexError` as `none`. -/
def mse_loss {C : Nat} (targets : List Int) (probas : List (Fin C → ℚ)) : Option ℚ :=
  (int_to_onehot targets C).map fun oh =>
    ((1 : ℚ) / 2 / (targets.length : ℚ)) *
      frobSq (List.zipWith (fun o p => fun j => o j - p j) oh probas)

/-- Python `range(0, stop, step)` for a positive `step`, over `Int` so that a
non-positive `stop` gives the empty range (as in `range(0, N - B + 1, B)`
when `B > N`). -/
def rangeStep (stop : Int) (step : Nat) : List Nat :=
  if stop ≤ 0 then []
  else (List.range ((stop - 1).toNat / step + 1)).map (· * step)

/-- The index batches of `minibatch_generator`: the source shuffles
`np.arange(N)` and slices `indices[start : start + B]` for
`start in range(0, N - B + 1, B)`.  The shuffled permutation is passed in
as the `indices` argument. -/
def minibatch_indices (indices : List Nat) (B : Nat) : List (List Nat) :=
  (rangeStep ((indices.length : Int) - (B : Int) + 1) B).map fun s =>
    (indices.drop s).take B

/-- numpy fancy indexing `rows[idxs]` for in-range indices. -/
def gather {α : Type} (rows : List α) (idxs : List Nat) : List α :=
  idxs.filterMap fun i => rows[i]?

/-- `minibatch_generator(X, y, minibatch_size)` from the source: yields
`(X[batch_idx], y[batch_idx])` for each contiguous slice `batch_idx` of the
shuffled index permutation. -/
def minibatch_generator {α : Type} (X : List α) (y : List Int)
    (indices : List Nat) (B : Nat) : List (List α × List Int) :=
  (minibatch_indices indices B).map fun bidx => (gather X bidx, gather y bidx)

/-- Modelled from the spec: the body of `affine_forward` is elided in the
source (`START OF YOUR CODE`); the docstring and §4.1 give
`Y = X·W + b` with the bias broadcast across rows, `cache = (x, w, b)`. -/
def affine_forward {N D M : Nat} (x : Matrix (Fin N) (Fin D) ℚ)
    (w : Matrix (Fin D) (Fin M) ℚ) (b : Fin M → ℚ) :
    Matrix (Fin N) (Fin M) ℚ ×
      (Matrix (Fin N) (Fin D) ℚ × Matrix (Fin D) (Fin M) ℚ × (Fin M → ℚ)) :=
  (Matrix.of fun i j => (x * w) i j + b j, (x, w, b))

/-- Modelled from the spec: the body of `affine_backward` is elided in the
source; §4.1 gives `dX = dY·Wᵀ`, `dW = Xᵀ·dY`, `db = column-sum(dY)` using
the `(x, w, b)` stored in the cache. -/
def affine_backward {N D M : Nat} (dout : Matrix (Fin N) (Fin M) ℚ)
    (cache : Matrix (Fin N) (Fin D) ℚ × Matrix (Fin D) (Fin M) ℚ × (Fin M → ℚ)) :
    Matrix (Fin N) (Fin D) ℚ × Matrix (Fin D) (Fin M) ℚ × (Fin M → ℚ) :=
  (dout * (cache.2.1)ᵀ, (cache.1)ᵀ * dout, fun j => ∑ i, dout i j)

/-- Modelled from the spec: the body of `relu_forward` is elided in the
source; the docstring and §4.2 give `out = max(0, x)` elementwise on an
array of any shape (here: any index type), `cache = x`. -/
def relu_forward {α : Type} (x : α → ℚ) : (α → ℚ) × (α → ℚ) :=
  (fun i => max 0 (x i), x)

/-- Modelled from the spec: the body of `relu_backward` is elided in the
source; §4.2 gives `dx[i] = dout[i]` where `x[i] > 0`, else `0` (the
subgradient at exactly zero is taken to be 0). -/
def relu_backward {α : Type} (dout : α → ℚ) (cache : α → ℚ) : α → ℚ :=
  fun i => if 0 < cache i then dout i else 0

/-- `affine_relu_forward(x, w, b)` from the source: affine forward, then
relu forward, cache pairing both sub-caches.  The `N × M` pre-activation
matrix is fed to the shape-generic `relu_forward` through its
`Fin N × Fin M` index type. -/
def affine_relu_forward {N D M : Nat} (x : Matrix (Fin N) (Fin D) ℚ)
    (w : Matrix (Fin D) (Fin M) ℚ) (b : Fin M → ℚ) :
    Matrix (Fin N) (Fin M) ℚ ×
      ((Matrix (Fin N) (Fin D) ℚ × Matrix (Fin D) (Fin M) ℚ × (Fin M → ℚ)) ×
        (Fin N × Fin M → ℚ)) :=
  let afr := affine_forward x w b
  let rfr := relu_forward fun p : Fin N × Fin M => afr.1 p.1 p.2
  (Matrix.of fun i j => rfr.1 (i, j), (afr.2, rfr.2))

/-- `affine_relu_backward(dout, cache)` from the source: relu backward on
the relu cache, then affine backward on the affine cache. -/
def affine_relu_backward {N D M : Nat} (dout : Matrix (Fin N) (Fin M) ℚ)
    (cache : (Matrix (Fin N) (Fin D) ℚ × Matrix (Fin D) (Fin M) ℚ × (Fin M → ℚ)) ×
      (Fin N × Fin M → ℚ)) :
    Matrix (Fin N) (Fin D) ℚ × Matrix (Fin D) (Fin M) ℚ × (Fin M → ℚ) :=
  let da := relu_backward (fun p : Fin N × Fin M => dout p.1 p.2) cache.2
  affine_backward (Matrix.of fun i j => da (i, j)) cache.1

/-- The parameter set of `TwoLayerNN`: `self.params` with its four keys. -/
structure Params (D H C : Nat) where
  weight_in : Matrix (Fin D) (Fin H) ℚ
  bias_in : Fin H → ℚ
  weight_out : Matrix (Fin H) (Fin C) ℚ
  bias_out : Fin C → ℚ
  deriving DecidableEq

/-- Modelled from the spec: `np.random.RandomState(random_seed)` is an
external seedable pseudo-random source; §5 requires only that the same
seed reproduce identical draws.  It is embedded as a deterministic
64-bit congruential stream indexed by seed and draw position. -/
def prngNat (seed idx : Nat) : Nat :=
  (fun s => (6364136223846793005 * s + 1442695040888963407) % 2 ^ 64)^[idx + 1]
    (seed % 2 ^ 64)

/-- Modelled from the spec: one standard draw of the pseudo-random stream,
as a rational in place of the float `rng` output. -/
def gaussDraw (seed idx : Nat) : ℚ :=
  (prngNat seed idx : ℚ) / 2 ^ 63 - 1

/-- Modelled from the spec: `rng.normal(loc, scale, ...)` entry number
`idx` of the stream — location plus scale times a standard draw. -/
def normalDraw (seed : Nat) (loc scale : ℚ) (idx : Nat) : ℚ :=
  loc + scale * gaussDraw seed idx

/-- `TwoLayerNN.__init__` from the source: `weight_in` is drawn entrywise
from `rng.normal(loc=0.0, scale=0.001)`, `bias_in = np.zeros`, then
`weight_out` is drawn from the same continuing stream (entries
`D*H, D*H+1, …`), `bias_out = np.zeros`. -/
def TwoLayerNN.init (D H C : Nat) (seed : Nat) : Params D H C where
  weight_in := Matrix.of fun i j => normalDraw seed 0 (1 / 1000) (i.val * H + j.val)
  bias_in := fun _ => 0
  weight_out := Matrix.of fun i j =>
    normalDraw seed 0 (1 / 1000) (D * H + (i.val * C + j.val))
  bias_out := fun _ => 0

/-- The `y is None` branch of `TwoLayerNN.loss` from the source:
`out1, cache1 = affine_relu_forward(X, weight_in, bias_in)`;
`out2, cache2 = affine_forward(out1, weight_out, bias_out)`; return `out2`. -/
def TwoLayerNN.predict {D H C N : Nat} (p : Params D H C)
    (X : Matrix (Fin N) (Fin D) ℚ) : Matrix (Fin N) (Fin C) ℚ :=
  let o1 := affine_relu_forward X p.weight_in p.bias_in
  let o2 := affine_forward o1.1 p.weight_out p.bias_out
  o2.1

/-- The one-hot target matrix for a vector of in-range labels, as produced
by `int_to_onehot` on valid input. -/
def onehotM {N C : Nat} (y : Fin N → Fin C) : Matrix (Fin N) (Fin C) ℚ :=
  Matrix.of fun i j => if y i = j then 1 else 0

/-- Modelled from the spec: the loss-and-gradients computation of the
`y is not None` branch of `TwoLayerNN.loss`, whose body is elided in the
source.  §4.5: the same forward composition as `predict`, the MSE loss
`(1/(2N)) · sum((onehot − scores)²)`, `dScores = (scores − onehot)/N`,
pushed through affine backward then fused backward, giving gradients keyed
like the parameter set. -/
def TwoLayerNN.lossAndGradients {D H C N : Nat} (p : Params D H C)
    (X : Matrix (Fin N) (Fin D) ℚ) (y : Fin N → Fin C) : ℚ × Params D H C :=
  let fr := affine_relu_forward X p.weight_in p.bias_in
  let sc := affine_forward fr.1 p.weight_out p.bias_out
  let oh := onehotM y
  let loss := (1 / (2 * (N : ℚ))) * ∑ i, ∑ j, (oh i j - sc.1 i j) ^ 2
  let dscores : Matrix (Fin N) (Fin C) ℚ :=
    Matrix.of fun i j => (sc.1 i j - oh i j) / (N : ℚ)
  let bo := affine_backward dscores sc.2
  let bi := affine_relu_backward bo.1 fr.2
  (loss, { weight_in := bi.2.1, bias_in := bi.2.2,
           weight_out := bo.2.1, bias_out := bo.2.2 })

/-- Modelled from the spec: the parameter update elided in the body of
`train` — `p ← p − η·grad[p]` for each of the four parameters with the
fixed scalar learning rate η. -/
def sgdUpdate {D H C : Nat} (p g : Params D H C) (η : ℚ) : Params D H C where
  weight_in := p.weight_in - η • g.weight_in
  bias_in := p.bias_in - η • g.bias_in
  weight_out := p.weight_out - η • g.weight_out
  bias_out := p.bias_out - η • g.bias_out

/-- Modelled from the spec: one mini-batch iteration of `train` — call the
model's loss-and-gradients on the mini-batch, then apply the SGD update. -/
def trainStep {D H C N : Nat} (p : Params D H C)
    (batch : Matrix (Fin N) (Fin D) ℚ × (Fin N → Fin C)) (η : ℚ) : Params D H C :=
  sgdUpdate p (TwoLayerNN.lossAndGradients p batch.1 batch.2).2 η

/-- The inner loop of `train` over one epoch's mini-batches, in order. -/
def trainEpoch {D H C N : Nat} (p : Params D H C)
    (batches : List (Matrix (Fin N) (Fin D) ℚ × (Fin N → Fin C))) (η : ℚ) :
    Params D H C :=
  batches.foldl (fun q b => trainStep q b η) p

/-! ### Helper lemmas -/

theorem npIndex_eq_none_iff (C : Nat) (v : Int) :
    npIndex C v = none ↔ (C : Int) ≤ v ∨ v < -(C : Int) := by
  unfold npIndex
  split_ifs with h1 h2 <;> simp <;> omega

theorem frobSq_nonneg {C : Nat} (rows : List (Fin C → ℚ)) : 0 ≤ frobSq rows := by
  apply List.sum_nonneg
  intro x hx
  simp only [List.mem_map] at hx
  obtain ⟨r, -, rfl⟩ := hx
  exact Finset.sum_nonneg fun j _ => sq_nonneg _

theorem frobSq_self_sub {C : Nat} (rows : List (Fin C → ℚ)) :
    frobSq (List.zipWith (fun o p => fun j => o j - p j) rows rows) = 0 := by
  induction rows with
  | nil => rfl
  | cons r rest ih =>
    simp only [List.zipWith_cons_cons, frobSq, List.map_cons, List.sum_cons] at ih ⊢
    simp [ih]

theorem npIndex_of_valid (C : Nat) (v : Int) (h0 : 0 ≤ v) (h1 : v < (C : Int)) :
    npIndex C v = some ⟨v.toNat, by omega⟩ := by
  unfold npIndex
  rw [dif_pos ⟨h0, h1⟩]

theorem npIndex_of_neg (C : Nat) (v : Int) (h0 : -(C : Int) ≤ v) (h1 : v < 0) :
    npIndex C v = some ⟨(v + (C : Int)).toNat, by omega⟩ := by
  unfold npIndex
  rw [dif_neg (by omega), dif_pos ⟨h0, h1⟩]

theorem int_to_onehot_valid_eq (y : List Int) (C : Nat)
    (hv : ∀ v ∈ y, 0 ≤ v ∧ v < (C : Int)) :
    int_to_onehot y C =
      some (y.map fun v => fun j : Fin C => if (j.val : Int) = v then (1 : ℚ) else 0) := by
  induction y with
  | nil => rfl
  | cons v rest ih =>
    have hvv := hv v (List.mem_cons_self v rest)
    have hrest : ∀ u ∈ rest, 0 ≤ u ∧ u < (C : Int) := fun u hu =>
      hv u (List.mem_cons_of_mem v hu)
    have hrow : (fun j : Fin C => if j = (⟨v.toNat, by omega⟩ : Fin C) then (1 : ℚ) else 0)
        = fun j : Fin C => if (j.val : Int) = v then (1 : ℚ) else 0 := by
      funext j
      have hiff : (j = (⟨v.toNat, by omega⟩ : Fin C)) ↔ ((j.val : Int) = v) := by
        rw [Fin.ext_iff]
        simp only [Fin.val_mk]
        omega
      simp only [hiff]
    simp [int_to_onehot, npIndex_of_valid C v hvv.1 hvv.2, ih hrest, hrow]

theorem int_to_onehot_neg_eq (y : List Int) (C : Nat)
    (hv : ∀ v ∈ y, -(C : Int) ≤ v ∧ v < 0) :
    int_to_onehot y C =
      some (y.map fun v => fun j : Fin C =>
        if (j.val : Int) = (C : Int) + v then (1 : ℚ) else 0) := by
  induction y with
  | nil => rfl
  | cons v rest ih =>
    have hvv := hv v (List.mem_cons_self v rest)
    have hrest : ∀ u ∈ rest, -(C : Int) ≤ u ∧ u < 0 := fun u hu =>
      hv u (List.mem_cons_of_mem v hu)
    have hrow : (fun j : Fin C =>
          if j = (⟨(v + (C : Int)).toNat, by omega⟩ : Fin C) then (1 : ℚ) else 0)
        = fun j : Fin C => if (j.val : Int) = (C : Int) + v then (1 : ℚ) else 0 := by
      funext j
      have hiff : (j = (⟨(v + (C : Int)).toNat, by omega⟩ : Fin C)) ↔
          ((j.val : Int) = (C : Int) + v) := by
        rw [Fin.ext_iff]
        simp only [Fin.val_mk]
        omega
      simp only [hiff]
    simp [int_to_onehot, npIndex_of_neg C v hvv.1 hvv.2, ih hrest, hrow]

theorem sum_single_indicator {C : Nat} (v : Int) (h0 : 0 ≤ v) (h1 : v < (C : Int)) :
    (∑ j : Fin C, if (j.val : Int) = v then (1 : ℚ) else 0) = 1 := by
  have hiff : ∀ j : Fin C, ((j.val : Int) = v) ↔ (j = ⟨v.toNat, by omega⟩) := by
    intro j
    rw [Fin.ext_iff]
    simp only [Fin.val_mk]
    omega
  simp only [hiff]
  simp [Finset.sum_ite_eq']

theorem gather_length {α : Type} (rows : List α) (idxs : List Nat)
    (h : ∀ i ∈ idxs, i < rows.length) : (gather rows idxs).length = idxs.length := by
  induction idxs with
  | nil => rfl
  | cons i rest ih =>
    have hi := h i (List.mem_cons_self i rest)
    have hrest : ∀ j ∈ rest, j < rows.length := fun j hj =>
      h j (List.mem_cons_of_mem i hj)
    simp only [gather] at ih ⊢
    rw [List.filterMap_cons, List.getElem?_eq_getElem hi]
    simp [ih hrest]

theorem minibatch_indices_eq (indices : List Nat) (B : Nat) (hB : 0 < B)
    (hBN : B ≤ indices.length) :
    minibatch_indices indices B =
      (List.range (indices.length / B)).map fun k => (indices.drop (k * B)).take B := by
  unfold minibatch_indices rangeStep
  rw [if_neg (by omega)]
  have h1 : ((indices.length : Int) - (B : Int) + 1 - 1).toNat = indices.length - B := by
    omega
  rw [h1, (Nat.div_eq_sub_div hB hBN).symm, List.map_map]
  rfl

/-! ### Claim theorems -/

/-- C1: for every cache `(X, W, b)` produced by `affine_forward` and every
upstream gradient `dY`, `affine_backward` returns exactly
`(dY·Wᵀ, Xᵀ·dY, column-sum(dY))`. -/
theorem affine_backward_matches_forward_cache {N D M : Nat}
    (x : Matrix (Fin N) (Fin D) ℚ) (w : Matrix (Fin D) (Fin M) ℚ) (b : Fin M → ℚ)
    (dout : Matrix (Fin N) (Fin M) ℚ) :
    (affine_forward x w b).2 = (x, w, b) ∧
    affine_backward dout (affine_forward x w b).2 =
      (dout * wᵀ, xᵀ * dout, fun j => ∑ i, dout i j) :=
  ⟨rfl, rfl⟩

/-- C2: each mini-batch iteration of the training loop calls the model's
loss-and-gradients on that mini-batch and then updates every one of the
four parameters by `p ← p − η·grad[p]`; the epoch fold processes
mini-batches in order by exactly this step. -/
theorem train_minibatch_update_rule {D H C N : Nat} (p : Params D H C)
    (batch : Matrix (Fin N) (Fin D) ℚ × (Fin N → Fin C)) (η : ℚ)
    (rest : List (Matrix (Fin N) (Fin D) ℚ × (Fin N → Fin C))) :
    (trainStep p batch η).weight_in
        = p.weight_in - η • (TwoLayerNN.lossAndGradients p batch.1 batch.2).2.weight_in ∧
    (trainStep p batch η).bias_in
        = p.bias_in - η • (TwoLayerNN.lossAndGradients p batch.1 batch.2).2.bias_in ∧
    (trainStep p batch η).weight_out
        = p.weight_out - η • (TwoLayerNN.lossAndGradients p batch.1 batch.2).2.weight_out ∧
    (trainStep p batch η).bias_out
        = p.bias_out - η • (TwoLayerNN.lossAndGradients p batch.1 batch.2).2.bias_out ∧
    trainEpoch p (batch :: rest) η = trainEpoch (trainStep p batch η) rest η :=
  ⟨rfl, rfl, rfl, rfl, rfl⟩

/-- C7: `predict` (the `y is None` branch of the model's loss operation)
is the fused affine-relu forward with `(weight_in, bias_in)` followed by
the plain affine forward with `(weight_out, bias_out)`, returning the raw
linear scores with no further transformation: entry `(i, j)` is exactly
`∑ k, max(0, (X·W_in)[i,k] + b_in[k]) · W_out[k,j] + b_out[j]`. -/
theorem predict_is_raw_affine_relu_affine {D H C N : Nat} (p : Params D H C)
    (X : Matrix (Fin N) (Fin D) ℚ) :
    TwoLayerNN.predict p X
        = (affine_forward (affine_relu_forward X p.weight_in p.bias_in).1
            p.weight_out p.bias_out).1 ∧
    ∀ i j, TwoLayerNN.predict p X i j
        = (∑ k, max 0 ((∑ d, X i d * p.weight_in d k) + p.bias_in k) * p.weight_out k j)
          + p.bias_out j := by
  refine ⟨rfl, fun i j => ?_⟩
  simp [TwoLayerNN.predict, affine_relu_forward, affine_forward, relu_forward,
    Matrix.mul_apply]

/-- C8: the nonlinearity forward returns `max(0, x)` elementwise with the
input as cache, and its backward propagates the upstream gradient exactly
where the input is positive and `0` where it is `≤ 0` (in particular the
subgradient at exactly zero is `0`). -/
theorem relu_forward_backward_pointwise {α : Type} (x dout : α → ℚ) (i : α) :
    (relu_forward x).1 i = max 0 (x i) ∧
    (relu_forward x).2 = x ∧
    relu_backward dout (relu_forward x).2 i = if 0 < x i then dout i else 0 :=
  ⟨rfl, rfl, rfl⟩

/-- C9: model construction is a pure function of the dimensions and the
caller-supplied seed — two constructions with the same seed produce
identical parameter sets; both bias vectors are exactly zero, and each
weight entry is `0 + 0.001 ·` (a draw of the seed-determined
pseudo-random stream), `weight_out` continuing the stream after the
`D·H` draws of `weight_in`. -/
theorem init_seed_determinism (D H C s1 s2 : Nat) (h : s1 = s2) :
    TwoLayerNN.init D H C s1 = TwoLayerNN.init D H C s2 ∧
    (∀ j, (TwoLayerNN.init D H C s1).bias_in j = 0) ∧
    (∀ j, (TwoLayerNN.init D H C s1).bias_out j = 0) ∧
    (∀ i j, (TwoLayerNN.init D H C s1).weight_in i j
        = 0 + (1 / 1000 : ℚ) * gaussDraw s1 (i.val * H + j.val)) ∧
    (∀ i j, (TwoLayerNN.init D H C s1).weight_out i j
        = 0 + (1 / 1000 : ℚ) * gaussDraw s1 (D * H + (i.val * C + j.val))) := by
  subst h
  exact ⟨rfl, fun _ => rfl, fun _ => rfl, fun _ _ => rfl, fun _ _ => rfl⟩

/-- C4: on a label vector whose entries all lie in `[0, C)`, the label
encoder returns a matrix with one row per label; every row sums to
exactly 1, and row `i` is 1 at column `labels[i]` and 0 everywhere
else. -/
theorem int_to_onehot_valid_onehot (y : List Int) (C : Nat)
    (hv : ∀ v ∈ y, 0 ≤ v ∧ v < (C : Int)) :
    ∃ rows, int_to_onehot y C = some rows ∧ rows.length = y.length ∧
      ∀ (i : Nat) (hi : i < y.length) (hr : i < rows.length),
        (∑ j, rows.get ⟨i, hr⟩ j) = 1 ∧
        ∀ j : Fin C, rows.get ⟨i, hr⟩ j
            = if (j.val : Int) = y.get ⟨i, hi⟩ then 1 else 0 := by
  refine ⟨_, int_to_onehot_valid_eq y C hv, by simp, ?_⟩
  intro i hi hr
  have hget : (y.map fun v => fun j : Fin C =>
        if (j.val : Int) = v then (1 : ℚ) else 0).get ⟨i, hr⟩
      = fun j : Fin C => if (j.val : Int) = y.get ⟨i, hi⟩ then (1 : ℚ) else 0 := by
    simp [List.get_map]
  rw [hget]
  have hvv := hv _ (y.get_mem i hi)
  refine ⟨?_, fun j => rfl⟩
  simpa using sum_single_indicator (C := C) (y.get ⟨i, hi⟩) hvv.1 hvv.2

/-- Witness for C4 on the labels `[0, 2, 1]` with 3 classes. -/
theorem int_to_onehot_valid_onehot_check :
    ∃ rows, int_to_onehot [(0 : Int), 2, 1] 3 = some rows ∧
      rows.length = ([(0 : Int), 2, 1] : List Int).length ∧
      ∀ (i : Nat) (hi : i < ([(0 : Int), 2, 1] : List Int).length)
        (hr : i < rows.length),
        (∑ j, rows.get ⟨i, hr⟩ j) = 1 ∧
        ∀ j : Fin 3, rows.get ⟨i, hr⟩ j
            = if (j.val : Int) = ([(0 : Int), 2, 1] : List Int).get ⟨i, hi⟩
              then 1 else 0 :=
  int_to_onehot_valid_onehot [(0 : Int), 2, 1] 3 (by decide)

/-- C5 counterexample: on the label vector `[-1]` with 2 classes — an
entry `< 0` — the label encoder does not fail: it returns a matrix. -/
theorem int_to_onehot_negative_returns_matrix :
    int_to_onehot [(-1 : Int)] 2 ≠ none := by decide

/-- C5 (amended): the label encoder fails (with numpy's `IndexError`) if
and only if some label is `≥ C` or `< −C`; labels in `[−C, 0)` do not
fail (they are silently wrapped, see the C10 theorem). -/
theorem int_to_onehot_none_iff_out_of_bounds (y : List Int) (C : Nat) :
    int_to_onehot y C = none ↔ ∃ v ∈ y, (C : Int) ≤ v ∨ v < -(C : Int) := by
  induction y with
  | nil => simp [int_to_onehot]
  | cons v rest ih =>
    cases h : npIndex C v with
    | none =>
      simp only [int_to_onehot, h]
      constructor
      · intro _
        exact ⟨v, List.mem_cons_self v rest, (npIndex_eq_none_iff C v).1 h⟩
      · intro _
        trivial
    | some jv =>
      have hv : ¬((C : Int) ≤ v ∨ v < -(C : Int)) := by
        intro hcon
        rw [(npIndex_eq_none_iff C v).2 hcon] at h
        exact Option.noConfusion h
      cases hr : int_to_onehot rest C with
      | none =>
        simp only [int_to_onehot, h, hr]
        constructor
        · intro _
          obtain ⟨u, hu, hout⟩ := ih.1 hr
          exact ⟨u, List.mem_cons_of_mem v hu, hout⟩
        · intro _
          trivial
      | some rows =>
        simp only [int_to_onehot, h, hr]
        constructor
        · intro hcon
          exact Option.noConfusion hcon
        · rintro ⟨u, hu, hout⟩
          rcases List.mem_cons.1 hu with rfl | hu2
          · exact absurd hout hv
          · exact absurd (ih.2 ⟨u, hu2, hout⟩) (by rw [hr]; exact fun hc => Option.noConfusion hc)

/-- C10: on a label vector whose entries all lie in `[−C, −1]`, the label
encoder does not fail: it returns one row per label, and row `i` sums to
1 with its single 1 at the wrapped column `C + labels[i]`. -/
theorem int_to_onehot_negative_wraparound (y : List Int) (C : Nat)
    (hv : ∀ v ∈ y, -(C : Int) ≤ v ∧ v < 0) :
    ∃ rows, int_to_onehot y C = some rows ∧ rows.length = y.length ∧
      ∀ (i : Nat) (hi : i < y.length) (hr : i < rows.length),
        (∑ j, rows.get ⟨i, hr⟩ j) = 1 ∧
        ∀ j : Fin C, rows.get ⟨i, hr⟩ j
            = if (j.val : Int) = (C : Int) + y.get ⟨i, hi⟩ then 1 else 0 := by
  refine ⟨_, int_to_onehot_neg_eq y C hv, by simp, ?_⟩
  intro i hi hr
  have hget : (y.map fun v => fun j : Fin C =>
        if (j.val : Int) = (C : Int) + v then (1 : ℚ) else 0).get ⟨i, hr⟩
      = fun j : Fin C =>
        if (j.val : Int) = (C : Int) + y.get ⟨i, hi⟩ then (1 : ℚ) else 0 := by
    simp [List.get_map]
  rw [hget]
  have hvv := hv _ (y.get_mem i hi)
  refine ⟨?_, fun j => rfl⟩
  simpa using sum_single_indicator (C := C) ((C : Int) + y.get ⟨i, hi⟩) (by omega) (by omega)

/-- Witness for C10 on the labels `[-1, -3]` with 3 classes. -/
theorem int_to_onehot_negative_wraparound_check :
    ∃ rows, int_to_onehot [(-1 : Int), -3] 3 = some rows ∧
      rows.length = ([(-1 : Int), -3] : List Int).length ∧
      ∀ (i : Nat) (hi : i < ([(-1 : Int), -3] : List Int).length)
        (hr : i < rows.length),
        (∑ j, rows.get ⟨i, hr⟩ j) = 1 ∧
        ∀ j : Fin 3, rows.get ⟨i, hr⟩ j
            = if (j.val : Int) = (3 : Int) + ([(-1 : Int), -3] : List Int).get ⟨i, hi⟩
              then 1 else 0 :=
  int_to_onehot_negative_wraparound [(-1 : Int), -3] 3 (by decide)

/-- C3: for in-range labels and a score matrix with one row per label,
the MSE loss is `(1/(2N)) ·` the summed squared entries of
`onehot − scores`; it is non-negative, and it is exactly 0 when the
scores equal the one-hot target matrix. -/
theorem mse_loss_formula_nonneg_zero {C : Nat} (targets : List Int)
    (probas : List (Fin C → ℚ))
    (hv : ∀ v ∈ targets, 0 ≤ v ∧ v < (C : Int))
    (hlen : probas.length = targets.length) (hN : 0 < targets.length) :
    ∃ oh, int_to_onehot targets C = some oh ∧
      mse_loss targets probas
          = some ((1 / (2 * (targets.length : ℚ))) *
              frobSq (List.zipWith (fun o p => fun j => o j - p j) oh probas)) ∧
      (∀ q, mse_loss targets probas = some q → 0 ≤ q) ∧
      (probas = oh → mse_loss targets probas = some 0) := by
  have hoh := int_to_onehot_valid_eq targets C hv
  refine ⟨_, hoh, ?_, ?_, ?_⟩
  · rw [mse_loss, hoh, Option.map_some']
    congr 1
    rw [div_div]
  · intro q hq
    rw [mse_loss, hoh] at hq
    simp only [Option.map_some', Option.some.injEq] at hq
    subst hq
    apply mul_nonneg
    · apply div_nonneg (div_nonneg one_pos.le two_pos.le)
      exact_mod_cast Nat.zero_le _
    · exact frobSq_nonneg _
  · intro hpe
    rw [mse_loss, hoh, Option.map_some', hpe, frobSq_self_sub, mul_zero]

/-- Witness for C3 with labels `[0, 1]`, 2 classes, and the scores equal
to the one-hot targets. -/
theorem mse_loss_formula_nonneg_zero_check :
    ∃ oh, int_to_onehot [(0 : Int), 1] 2 = some oh ∧
      mse_loss [(0 : Int), 1]
          ([(0 : Int), 1].map fun v => fun j : Fin 2 =>
            if (j.val : Int) = v then (1 : ℚ) else 0)
          = some ((1 / (2 * (([(0 : Int), 1] : List Int).length : ℚ))) *
              frobSq (List.zipWith (fun o p => fun j => o j - p j) oh
                ([(0 : Int), 1].map fun v => fun j : Fin 2 =>
                  if (j.val : Int) = v then (1 : ℚ) else 0))) ∧
      (∀ q, mse_loss [(0 : Int), 1]
          ([(0 : Int), 1].map fun v => fun j : Fin 2 =>
            if (j.val : Int) = v then (1 : ℚ) else 0) = some q → 0 ≤ q) ∧
      (([(0 : Int), 1].map fun v => fun j : Fin 2 =>
          if (j.val : Int) = v then (1 : ℚ) else 0) = oh →
        mse_loss [(0 : Int), 1]
          ([(0 : Int), 1].map fun v => fun j : Fin 2 =>
            if (j.val : Int) = v then (1 : ℚ) else 0) = some 0) :=
  mse_loss_formula_nonneg_zero [(0 : Int), 1]
    ([(0 : Int), 1].map fun v => fun j : Fin 2 =>
      if (j.val : Int) = v then (1 : ℚ) else 0)
    (by decide) (by simp) (by simp)

/-- C6: for mini-batch size `0 < B ≤ N`, one epoch of the generator yields
exactly `⌊N/B⌋` mini-batches — the contiguous length-`B` slices of the
shuffled permutation starting at `0, B, 2B, …` — each with exactly `B`
examples and `B` labels; the remainder of fewer than `B` examples is
dropped. -/
theorem minibatch_truncation_policy {α : Type} (X : List α) (y : List Int)
    (indices : List Nat) (B : Nat) (hB : 0 < B)
    (hlen : indices.length = X.length)
    (hval : ∀ i ∈ indices, i < X.length)
    (hy : y.length = X.length) (hBN : B ≤ X.length) :
    minibatch_indices indices B =
      (List.range (X.length / B)).map (fun k => (indices.drop (k * B)).take B) ∧
    (minibatch_generator X y indices B).length = X.length / B ∧
    ∀ p ∈ minibatch_generator X y indices B, p.1.length = B ∧ p.2.length = B := by
  have hBN2 : B ≤ indices.length := by omega
  have heq := minibatch_indices_eq indices B hB hBN2
  rw [hlen] at heq
  refine ⟨heq, ?_, ?_⟩
  · simp [minibatch_generator, heq]
  · intro p hp
    simp only [minibatch_generator, List.mem_map] at hp
    obtain ⟨bidx, hmem, rfl⟩ := hp
    rw [heq] at hmem
    simp only [List.mem_map, List.mem_range] at hmem
    obtain ⟨k, hk, rfl⟩ := hmem
    have h3 : k * B + B ≤ indices.length := by
      rw [hlen]
      calc k * B + B = (k + 1) * B := by ring
        _ ≤ X.length / B * B := Nat.mul_le_mul_right B (Nat.succ_le_of_lt hk)
        _ ≤ X.length := Nat.div_mul_le_self _ _
    have h4 : B ≤ indices.length - k * B :=
      Nat.le_sub_of_add_le (by rw [Nat.add_comm]; exact h3)
    have hslice : ((indices.drop (k * B)).take B).length = B := by
      simp [List.length_take, List.length_drop, Nat.min_eq_left h4]
    have hsub : ∀ i ∈ (indices.drop (k * B)).take B, i < X.length := fun i hi =>
      hval i (((List.take_sublist _ _).trans (List.drop_sublist _ _)).mem hi)
    constructor
    · rw [gather_length X _ hsub, hslice]
    · rw [gather_length y _ (fun i hi => hy ▸ hsub i hi), hslice]

/-- Witness for C6: on 17 training examples with mini-batch size 5 the
generator produces exactly 3 mini-batches of 5 examples each (15 used,
2 dropped). -/
theorem minibatch_truncation_policy_check :
    (minibatch_indices (List.range 17) 5 =
      (List.range ((List.range 17 : List Nat).length / 5)).map
        (fun k => ((List.range 17).drop (k * 5)).take 5) ∧
    (minibatch_generator (List.range 17) (List.replicate 17 (0 : Int))
        (List.range 17) 5).length = (List.range 17 : List Nat).length / 5 ∧
    ∀ p ∈ minibatch_generator (List.range 17) (List.replicate 17 (0 : Int))
        (List.range 17) 5, p.1.length = 5 ∧ p.2.length = 5) ∧
    (minibatch_generator (List.range 17) (List.replicate 17 (0 : Int))
        (List.range 17) 5).length = 3 :=
  ⟨minibatch_truncation_policy (List.range 17) (List.replicate 17 0) (List.range 17) 5
      (by decide) (by simp) (fun i hi => by simpa using List.mem_range.1 hi)
      (by simp) (by simp),
   by decide⟩

/-- Witness for C9 at concrete dimensions 2×3×2 and seed 123. -/
theorem init_seed_determinism_check :
    TwoLayerNN.init 2 3 2 123 = TwoLayerNN.init 2 3 2 123 ∧
    (∀ j, (TwoLayerNN.init 2 3 2 123).bias_in j = 0) ∧
    (∀ j, (TwoLayerNN.init 2 3 2 123).bias_out j = 0) ∧
    (∀ i j, (TwoLayerNN.init 2 3 2 123).weight_in i j
        = 0 + (1 / 1000 : ℚ) * gaussDraw 123 (i.val * 3 + j.val)) ∧
    (∀ i j, (TwoLayerNN.init 2 3 2 123).weight_out i j
        = 0 + (1 / 1000 : ℚ) * gaussDraw 123 (2 * 3 + (i.val * 2 + j.val))) :=
  init_seed_determinism 2 3 2 123 123 rfl

end TwoLayerPerceptron
